import Mathlib

/-!
Shallow embedding of `src/IOSApp/generate_icon.py`, the Raga Radio app-icon
generator.

Modelling conventions:
* A bitmap (`Canvas`) is a width, a height, and a pixel function; Pillow's
  `Image.new('RGB', size)` yields the all-black pixel function.
* Every Pillow drawing call is a fill command (a shape plus a fill color)
  applied to the pixel function; `ImageDraw.Draw(image)` on an `'RGB'` image
  creates a non-blending drawing context, so a 4-tuple ink is truncated to its
  RGB components (alpha is ignored).  Shape membership uses the exact integer
  geometry of the bounding boxes the script passes.
* The gradient's float expressions `int(255 * (1 - y/h) + 75 * (y/h))` etc.
  are modelled at two levels.  `gradR_fp`/`gradG_fp`/`gradB_fp` evaluate them
  in IEEE-754 double precision, modelled exactly (each double is carried as
  the rational m * 2^e it represents, and every operation rounds the exact
  result to nearest, ties to even); `int()` of the nonnegative result is its
  floor.  `gradR`/`gradG`/`gradB` are the exact-arithmetic idealization, the
  floor of the exact rational blend; the two differ at some heights (first at
  h = 5) but `grad_fp_1024_eq` proves them equal at every row of the height
  1024 the script generates, where all intermediate doubles are exactly
  representable.
* `Image.resize` returns a fresh bitmap of the requested dimensions; the
  Lanczos resampling kernel itself is abstracted as a coordinate resample,
  which no claim below depends on (only dimensions and freshness matter).
* Filesystem effects (`os.makedirs`, `Image.save`) are modelled by explicit
  state passing; an environment `fails : String → Bool` says which paths
  raise an I/O error on write, and a raised error aborts the loop, carrying
  the state reached so far.
-/

/-- An RGB pixel: three channel values in 0..255. -/
abbrev Color := Nat × Nat × Nat

/-- A fill color as passed to a Pillow drawing call: a 3- or 4-tuple. -/
inductive Fill where
  | rgb (r g b : Nat)
  | rgba (r g b a : Nat)
  deriving DecidableEq, Repr

/-- The ink a non-blending RGB drawing context derives from a fill: the RGB
components; a 4-tuple's alpha component is ignored (Pillow blends only when
the draw object is created with an explicit `'RGBA'` mode, which the script
never does). -/
def Fill.ink : Fill → Color
  | .rgb r g b => (r, g, b)
  | .rgba r g b _ => (r, g, b)

/-- Integer cross product for triangle membership. -/
def cross (a b c : Int × Int) : Int :=
  (b.1 - a.1) * (c.2 - a.2) - (b.2 - a.2) * (c.1 - a.1)

/-- Membership of point (X, Y) in the filled ellipse inscribed in the
bounding box x0 ≤ x ≤ x1, y0 ≤ y ≤ y1. -/
def inEllipse (x0 y0 x1 y1 X Y : Int) : Bool :=
  decide ((2*X - (x0+x1))^2 * (y1-y0)^2 + (2*Y - (y0+y1))^2 * (x1-x0)^2
            ≤ (x1-x0)^2 * (y1-y0)^2)

/-- The shapes the script draws.  `line` is used by the gradient only for
horizontal segments; `ring` is an ellipse outline of a given stroke width. -/
inductive Shape where
  | line (x0 y0 x1 y1 : Int)
  | rect (x0 y0 x1 y1 : Int)
  | ellipse (x0 y0 x1 y1 : Int)
  | tri (p q r : Int × Int)
  | ring (x0 y0 x1 y1 w : Int)
  deriving DecidableEq, Repr

/-- Whether a shape covers the pixel (X, Y). -/
def Shape.covers : Shape → Int → Int → Bool
  | .line x0 y0 x1 y1, X, Y =>
      decide (y0 = y1 ∧ Y = y0 ∧ min x0 x1 ≤ X ∧ X ≤ max x0 x1)
  | .rect x0 y0 x1 y1, X, Y =>
      decide (x0 ≤ X ∧ X ≤ x1 ∧ y0 ≤ Y ∧ Y ≤ y1)
  | .ellipse x0 y0 x1 y1, X, Y => inEllipse x0 y0 x1 y1 X Y
  | .tri p q r, X, Y =>
      let d1 := cross p q (X, Y)
      let d2 := cross q r (X, Y)
      let d3 := cross r p (X, Y)
      decide ((0 ≤ d1 ∧ 0 ≤ d2 ∧ 0 ≤ d3) ∨ (d1 ≤ 0 ∧ d2 ≤ 0 ∧ d3 ≤ 0))
  | .ring x0 y0 x1 y1 w, X, Y =>
      inEllipse x0 y0 x1 y1 X Y && !inEllipse (x0+w) (y0+w) (x1-w) (y1-w) X Y

/-- An in-memory bitmap: dimensions plus pixel data. -/
structure Canvas where
  width : Nat
  height : Nat
  pix : Int → Int → Color

/-- One drawing call: overwrite every covered pixel with the fill's ink
(the context does not blend, see `Fill.ink`). -/
def applyCmd (c : Canvas) (cmd : Shape × Fill) : Canvas :=
  { c with pix := fun X Y => if cmd.1.covers X Y then cmd.2.ink else c.pix X Y }

/-- A sequence of drawing calls, applied in order. -/
def applyCmds (c : Canvas) (cmds : List (Shape × Fill)) : Canvas :=
  cmds.foldl applyCmd c

/-- `Image.new('RGB', (w, h))`: a fresh all-black bitmap. -/
def blank (w h : Nat) : Canvas := ⟨w, h, fun _ _ => (0, 0, 0)⟩

/-- Red channel of gradient row y of height h in exact arithmetic: the
floor of the exact rational blend `255 * (1 - y/h) + 75 * (y/h)`.  The
program computes the expression in doubles (see `gradR_fp`); the two agree
at every row of the generated height 1024 (`grad_fp_1024_eq`). -/
def gradR (y h : Nat) : Nat := (255 * (h - y) + 75 * y) / h

/-- Green channel of gradient row y in exact arithmetic (cf. `gradG_fp`). -/
def gradG (y h : Nat) : Nat := (140 * (h - y) + 0 * y) / h

/-- Blue channel of gradient row y in exact arithmetic (cf. `gradB_fp`). -/
def gradB (y h : Nat) : Nat := (0 * (h - y) + 130 * y) / h

/-- The color the gradient loop computes for row y. -/
def gradColor (y h : Nat) : Color := (gradR y h, gradG y h, gradB y h)

/-- The drawing calls issued by the gradient loop: for each row y one
full-width horizontal line `draw.line([(0, y), (w, y)], fill=(r, g, b))`. -/
def gradient_cmds (w h : Nat) : List (Shape × Fill) :=
  (List.range h).map fun (y : Nat) =>
    (Shape.line 0 (y : Int) (w : Int) (y : Int),
     Fill.rgb (gradR y h) (gradG y h) (gradB y h))

/-- `create_gradient_background((w, h))`: a fresh RGB image painted row by
row with the orange-to-purple interpolation. -/
def create_gradient_background (w h : Nat) : Canvas :=
  applyCmds (blank w h) (gradient_cmds w h)

/-- The three drawing calls issued by `draw_music_note(draw, cx, cy, size,
color)`: note head (ellipse), stem (rectangle), flag (triangle), all with
the same fill; `//` on nonnegative ints is `Nat` division. -/
def note_cmds (cx cy : Int) (size : Nat) (color : Fill) : List (Shape × Fill) :=
  let note_radius : Int := ((size / 8 : Nat) : Int)
  let stem_width : Int := ((size / 25 : Nat) : Int)
  [ (Shape.ellipse (cx - note_radius) (cy + ((size / 6 : Nat) : Int))
      (cx + note_radius) (cy + ((size / 6 : Nat) : Int) + note_radius * 2), color),
    (Shape.rect (cx + note_radius - stem_width) (cy - ((size / 3 : Nat) : Int))
      (cx + note_radius) (cy + ((size / 6 : Nat) : Int)), color),
    (Shape.tri (cx + note_radius, cy - ((size / 3 : Nat) : Int))
      (cx + note_radius + ((size / 6 : Nat) : Int), cy - ((size / 5 : Nat) : Int))
      (cx + note_radius, cy - ((size / 8 : Nat) : Int)), color) ]

/-- `draw_music_note`: mutates the canvas in place by the three fill
commands, returning nothing beyond the mutated canvas (modelled by state
passing). -/
def draw_music_note (c : Canvas) (cx cy : Int) (size : Nat) (color : Fill) : Canvas :=
  applyCmds c (note_cmds cx cy size color)

/-- `create_icon(output_path, size)` without the final PNG save: gradient
background, main white note at the center, secondary note (smaller, offset,
4-tuple fill), circular border outline of width size // 50. -/
def create_icon (size : Nat) : Canvas :=
  let image := create_gradient_background size size
  let center_x : Int := ((size / 2 : Nat) : Int)
  let center_y : Int := ((size / 2 : Nat) : Int)
  let i1 := draw_music_note image center_x center_y size (Fill.rgb 255 255 255)
  let i2 := draw_music_note i1 (center_x - ((size / 5 : Nat) : Int))
              (center_y + ((size / 10 : Nat) : Int)) (size * 3 / 4)
              (Fill.rgba 255 255 255 200)
  let border_width : Int := ((size / 50 : Nat) : Int)
  applyCmd i2
    (Shape.ring border_width border_width ((size : Int) - border_width)
      ((size : Int) - border_width) border_width, Fill.rgba 255 255 255 180)

/-- The `sizes` dict of `generate_all_sizes`, in declaration order. -/
def sizes : List (String × Nat) :=
  [("Icon-1024.png", 1024), ("Icon-180.png", 180), ("Icon-167.png", 167),
   ("Icon-152.png", 152), ("Icon-120.png", 120), ("Icon-87.png", 87),
   ("Icon-80.png", 80), ("Icon-76.png", 76), ("Icon-60.png", 60),
   ("Icon-58.png", 58), ("Icon-40.png", 40), ("Icon-29.png", 29)]

/-- `base_image.resize((w, h), LANCZOS)`: a fresh bitmap of the requested
dimensions sampling the source (the resampling kernel is abstracted; no
claim depends on it, only on dimensions and on the source being left
untouched). -/
def resize (img : Canvas) (w h : Nat) : Canvas :=
  ⟨w, h, fun X Y => img.pix (X * (img.width : Int) / (w : Int))
                            (Y * (img.height : Int) / (h : Int))⟩

/-- The filesystem as seen by the script: created directories and the files
written so far (path plus the bitmap it encodes). -/
structure FS where
  dirs : List String
  files : List (String × Canvas)

/-- `os.makedirs(d, exist_ok=True)`: create the directory if missing, no
error when it already exists. -/
def makedirs (fs : FS) (d : String) : FS :=
  if d ∈ fs.dirs then fs else { fs with dirs := d :: fs.dirs }

/-- `os.path.join(dir, name)`. -/
def joinPath (dir name : String) : String := dir ++ "/" ++ name

/-- The mutable state of a `generate_all_sizes` run: the base image handed
in, and the filesystem. -/
structure GenState where
  base_image : Canvas
  fs : FS

/-- The write loop of `generate_all_sizes`: for each (filename, size) pair
in order, resize and save; a failing save raises, aborting the remaining
iterations and leaving the files already written in place (second component
`some path` reports the raised error's path). -/
def writeLoop (fails : String → Bool) (dir : String) :
    List (String × Nat) → GenState → GenState × Option String
  | [], st => (st, none)
  | (filename, size) :: rest, st =>
      let resized := resize st.base_image size size
      let output_path := joinPath dir filename
      if fails output_path then (st, some output_path)
      else writeLoop fails dir rest
        { st with fs := { st.fs with files := st.fs.files ++ [(output_path, resized)] } }

/-- `generate_all_sizes(base_image, output_dir)`: idempotent directory
creation, then the write loop over the size table in declaration order. -/
def generate_all_sizes (fails : String → Bool) (st : GenState) (output_dir : String) :
    GenState × Option String :=
  writeLoop fails output_dir sizes { st with fs := makedirs st.fs output_dir }

/-- The `__main__` block's master icon: `create_icon(main_icon_path, 1024)`. -/
def main_icon : Canvas := create_icon 1024

/-- The effect of one drawing command on a single pixel. -/
def paint (X Y : Int) (col : Color) (cmd : Shape × Fill) : Color :=
  if cmd.1.covers X Y then cmd.2.ink else col

theorem applyCmd_pix (c : Canvas) (cmd : Shape × Fill) (X Y : Int) :
    (applyCmd c cmd).pix X Y = paint X Y (c.pix X Y) cmd := rfl

theorem applyCmds_pix (cmds : List (Shape × Fill)) (c : Canvas) (X Y : Int) :
    (applyCmds c cmds).pix X Y = cmds.foldl (paint X Y) (c.pix X Y) := by
  induction cmds generalizing c with
  | nil => rfl
  | cons cmd rest ih =>
      simpa [applyCmds, List.foldl_cons] using ih (applyCmd c cmd)

theorem applyCmd_width (c : Canvas) (cmd : Shape × Fill) :
    (applyCmd c cmd).width = c.width := rfl

theorem applyCmd_height (c : Canvas) (cmd : Shape × Fill) :
    (applyCmd c cmd).height = c.height := rfl

theorem applyCmds_width (cmds : List (Shape × Fill)) (c : Canvas) :
    (applyCmds c cmds).width = c.width := by
  induction cmds generalizing c with
  | nil => rfl
  | cons cmd rest ih => simpa [applyCmds] using ih (applyCmd c cmd)

theorem applyCmds_height (cmds : List (Shape × Fill)) (c : Canvas) :
    (applyCmds c cmds).height = c.height := by
  induction cmds generalizing c with
  | nil => rfl
  | cons cmd rest ih => simpa [applyCmds] using ih (applyCmd c cmd)

theorem foldl_paint_inert (X Y : Int) (cmds : List (Shape × Fill)) (a : Color)
    (h : ∀ cmd ∈ cmds, cmd.1.covers X Y = false) :
    cmds.foldl (paint X Y) a = a := by
  induction cmds with
  | nil => rfl
  | cons cmd rest ih =>
      rw [List.foldl_cons]
      have h0 : cmd.1.covers X Y = false := h cmd (List.mem_cons_self _ _)
      rw [show paint X Y a cmd = a from by simp [paint, h0]]
      exact ih fun c hc => h c (List.mem_cons_of_mem _ hc)

theorem foldl_paint_last (X Y : Int) (l1 l2 : List (Shape × Fill))
    (c : Shape × Fill) (a : Color)
    (hc : c.1.covers X Y = true)
    (h2 : ∀ cmd ∈ l2, cmd.1.covers X Y = false) :
    (l1 ++ c :: l2).foldl (paint X Y) a = c.2.ink := by
  rw [List.foldl_append, List.foldl_cons]
  rw [show paint X Y (l1.foldl (paint X Y) a) c = c.2.ink from by simp [paint, hc]]
  exact foldl_paint_inert X Y l2 _ h2

/-- The gradient loop paints pixel (X, y) (0 ≤ X ≤ w, y < h) with exactly
the row-y interpolated color: the row-y line covers it and no later row
touches it. -/
theorem gradient_pix (w h : Nat) (X : Int) (y : Nat) (hy : y < h)
    (hX0 : 0 ≤ X) (hXw : X ≤ (w : Int)) :
    (create_gradient_background w h).pix X (y : Int) = gradColor y h := by
  obtain ⟨k, rfl⟩ : ∃ k, h = (y + 1) + k := ⟨h - (y + 1), by omega⟩
  have hrange : List.range ((y + 1) + k)
      = List.range y ++ y :: (List.range k).map (fun i => (y + 1) + i) := by
    rw [List.range_add, List.range_succ]
    simp
  rw [create_gradient_background, applyCmds_pix, gradient_cmds, hrange,
    List.map_append, List.map_cons]
  have hfire : (Shape.line 0 (y : Int) (w : Int) (y : Int)).covers X (y : Int) = true := by
    simp only [Shape.covers, decide_eq_true_eq, min_le_iff, le_max_iff]
    exact ⟨trivial, trivial, Or.inl hX0, Or.inr hXw⟩
  have hinert : ∀ cmd ∈ ((List.range k).map (fun i => (y + 1) + i)).map
      (fun (r : Nat) => (Shape.line 0 (r : Int) (w : Int) (r : Int),
        Fill.rgb (gradR r ((y + 1) + k)) (gradG r ((y + 1) + k)) (gradB r ((y + 1) + k)))),
      cmd.1.covers X (y : Int) = false := by
    intro cmd hcmd
    simp only [List.map_map, List.mem_map, List.mem_range, Function.comp] at hcmd
    obtain ⟨i, hi, rfl⟩ := hcmd
    simp only [Shape.covers, decide_eq_false_iff_not]
    rintro ⟨-, h2, -⟩
    omega
  rw [foldl_paint_last _ _ _ _ _ _ hfire hinert]
  rfl

/-- Fuel-driven binary logarithm (structural recursion): for 1 ≤ n ≤ fuel,
`log2fuel fuel n` is the floor of the base-2 logarithm of n. -/
def log2fuel : Nat → Nat → Nat
  | 0, _ => 0
  | fuel+1, n => if n ≤ 1 then 0 else log2fuel fuel (n / 2) + 1

theorem log2fuel_bounds : ∀ (fuel n : Nat), 1 ≤ n → n ≤ fuel →
    2 ^ log2fuel fuel n ≤ n ∧ n < 2 ^ (log2fuel fuel n + 1) := by
  intro fuel
  induction fuel with
  | zero => intro n h1 h2; omega
  | succ fuel ih =>
      intro n h1 h2
      rw [log2fuel]
      by_cases hn : n ≤ 1
      · simp only [hn, if_true]
        omega
      · simp only [hn, if_false]
        have hrec := ih (n / 2) (by omega) (by omega)
        have hp1 : 2 ^ (log2fuel fuel (n / 2) + 1) = 2 * 2 ^ log2fuel fuel (n / 2) := by ring
        have hp2 : 2 ^ (log2fuel fuel (n / 2) + 1 + 1) = 2 * 2 ^ (log2fuel fuel (n / 2) + 1) := by
          ring
        omega

/-- Floor of the base-2 logarithm of n / d for positive n, d: the unique z
with 2^z ≤ n/d < 2^(z+1), computed from the integer logs plus one
comparison. -/
def floorLog2 (n d : Nat) : Int :=
  let a : Int := (log2fuel n n : Int)
  let b : Int := (log2fuel d d : Int)
  if d * 2 ^ (a - b).toNat ≤ n * 2 ^ (b - a).toNat then a - b else a - b - 1

theorem two_zpow_eq (z : Int) :
    (2:ℚ) ^ z = ((2 ^ z.toNat : Nat) : ℚ) / ((2 ^ (-z).toNat : Nat) : ℚ) := by
  rcases le_or_lt 0 z with hz | hz
  · obtain ⟨k, rfl⟩ : ∃ k : ℕ, z = (k : ℤ) := ⟨z.toNat, by omega⟩
    rw [show ((k:ℤ)).toNat = k from by omega, show (-(k:ℤ)).toNat = 0 from by omega]
    rw [zpow_natCast]
    push_cast
    simp
  · obtain ⟨k, rfl⟩ : ∃ k : ℕ, z = -(k : ℤ) := ⟨(-z).toNat, by omega⟩
    rw [show (-(k:ℤ)).toNat = 0 from by omega, show (- -(k:ℤ)).toNat = k from by omega]
    rw [zpow_neg, zpow_natCast]
    push_cast
    simp

theorem zpow_le_div_iff_nat (z : Int) (n d : Nat) (hd : 0 < d) :
    ((2:ℚ) ^ z ≤ (n:ℚ) / d) ↔ (d * 2 ^ z.toNat ≤ n * 2 ^ (-z).toNat) := by
  rw [two_zpow_eq z, div_le_div_iff₀ (by positivity) (by positivity)]
  rw [mul_comm ((2 ^ z.toNat : Nat) : ℚ) (d:ℚ)]
  constructor
  · intro h; exact_mod_cast h
  · intro h; exact_mod_cast h

theorem div_lt_zpow_iff_nat (z : Int) (n d : Nat) (hd : 0 < d) :
    ((n:ℚ) / d < (2:ℚ) ^ z) ↔ (n * 2 ^ (-z).toNat < d * 2 ^ z.toNat) := by
  rw [two_zpow_eq z, div_lt_div_iff₀ (by positivity) (by positivity)]
  rw [mul_comm ((2 ^ z.toNat : Nat) : ℚ) (d:ℚ)]
  constructor
  · intro h; exact_mod_cast h
  · intro h; exact_mod_cast h

theorem floorLog2_bounds (n d : Nat) (hn : 1 ≤ n) (hd : 1 ≤ d) :
    (2:ℚ) ^ floorLog2 n d ≤ (n : ℚ) / (d : ℚ) ∧
    (n : ℚ) / (d : ℚ) < (2:ℚ) ^ (floorLog2 n d + 1) := by
  have hn2 := log2fuel_bounds n n hn (le_refl n)
  have hd2 := log2fuel_bounds d d hd (le_refl d)
  set a : Int := (log2fuel n n : Int) with ha
  set b : Int := (log2fuel d d : Int) with hb
  have hd0 : (0:ℚ) < (d:ℚ) := by exact_mod_cast hd
  have hn0 : (0:ℚ) < (n:ℚ) := by exact_mod_cast hn
  have hqa1 : (2:ℚ) ^ a ≤ (n:ℚ) := by
    rw [ha, zpow_natCast]
    exact_mod_cast hn2.1
  have hqa2 : (n:ℚ) < (2:ℚ) ^ (a + 1) := by
    rw [ha, show ((log2fuel n n : Int) + 1) = ((log2fuel n n + 1 : ℕ) : ℤ) from by push_cast; ring,
      zpow_natCast]
    exact_mod_cast hn2.2
  have hqb1 : (2:ℚ) ^ b ≤ (d:ℚ) := by
    rw [hb, zpow_natCast]
    exact_mod_cast hd2.1
  have hqb2 : (d:ℚ) < (2:ℚ) ^ (b + 1) := by
    rw [hb, show ((log2fuel d d : Int) + 1) = ((log2fuel d d + 1 : ℕ) : ℤ) from by push_cast; ring,
      zpow_natCast]
    exact_mod_cast hd2.2
  -- generic two-sided bracket 2^(a-b-1) < n/d < 2^(a-b+1)
  have hup : (n:ℚ) / d < (2:ℚ) ^ (a - b + 1) := by
    have h1 : (n:ℚ) / d < (2:ℚ) ^ (a + 1) / (2:ℚ) ^ b := by
      rw [div_lt_div_iff₀ hd0 (by positivity)]
      calc (n:ℚ) * (2:ℚ) ^ b < (2:ℚ) ^ (a + 1) * (2:ℚ) ^ b := by
            exact mul_lt_mul_of_pos_right hqa2 (by positivity)
        _ ≤ (2:ℚ) ^ (a + 1) * (d:ℚ) := by
            exact mul_le_mul_of_nonneg_left hqb1 (by positivity)
    calc (n:ℚ) / d < (2:ℚ) ^ (a + 1) / (2:ℚ) ^ b := h1
      _ = (2:ℚ) ^ (a - b + 1) := by
          rw [← zpow_sub₀ (by norm_num : (2:ℚ) ≠ 0)]
          congr 1
          ring
  have hlo : (2:ℚ) ^ (a - b - 1) < (n:ℚ) / d := by
    have h1 : (2:ℚ) ^ a / (2:ℚ) ^ (b + 1) < (n:ℚ) / d := by
      rw [div_lt_div_iff₀ (by positivity) hd0]
      calc (2:ℚ) ^ a * (d:ℚ) ≤ (n:ℚ) * (d:ℚ) := by
            exact mul_le_mul_of_nonneg_right hqa1 (by positivity)
        _ < (n:ℚ) * (2:ℚ) ^ (b + 1) := by
            exact mul_lt_mul_of_pos_left hqb2 hn0
    calc (2:ℚ) ^ (a - b - 1) = (2:ℚ) ^ a / (2:ℚ) ^ (b + 1) := by
          rw [← zpow_sub₀ (by norm_num : (2:ℚ) ≠ 0)]
          congr 1
          ring
      _ < (n:ℚ) / d := h1
  rw [floorLog2]
  by_cases htest : d * 2 ^ (a - b).toNat ≤ n * 2 ^ (b - a).toNat
  · simp only [htest, if_true]
    constructor
    · rw [zpow_le_div_iff_nat _ _ _ (by omega)]
      rw [show (-(a - b)).toNat = (b - a).toNat from by omega]
      exact htest
    · exact hup
  · simp only [htest, if_false]
    constructor
    · exact le_of_lt (by
        calc (2:ℚ) ^ (a - b - 1) < (n:ℚ) / d := hlo)
    · have : ¬ ((2:ℚ) ^ (a - b) ≤ (n:ℚ) / d) := by
        rw [zpow_le_div_iff_nat _ _ _ (by omega)]
        rw [show (-(a - b)).toNat = (b - a).toNat from by omega]
        exact htest
      have h2 : (n:ℚ) / d < (2:ℚ) ^ (a - b) := lt_of_not_le this
      calc (n:ℚ) / d < (2:ℚ) ^ (a - b) := h2
        _ = (2:ℚ) ^ (a - b - 1 + 1) := by congr 1; ring

/-- An IEEE-754 double-precision value represented exactly: the rational
m · 2^e.  All values the script manipulates are nonnegative and far below
the overflow threshold, so signs, infinities and NaN are not needed. -/
structure FP where
  m : Nat
  e : Int

/-- The exact rational value of a represented double. -/
def FP.val (x : FP) : ℚ := (x.m : ℚ) * (2:ℚ) ^ x.e

/-- Round N / D to the nearest integer, ties to even. -/
def roundMant (N D : Nat) : Nat :=
  let fl := N / D
  let r := N % D
  if 2 * r < D then fl else if D < 2 * r then fl + 1 else if fl % 2 = 0 then fl else fl + 1

theorem roundMant_mul (D K : Nat) (hD : 0 < D) : roundMant (D * K) D = K := by
  rw [roundMant]
  simp only [Nat.mul_div_cancel_left K hD, Nat.mul_mod_right, Nat.mul_zero]
  rw [if_pos (by omega)]

/-- Round the nonnegative value (n / d) · 2^E to the nearest representable
double (round to nearest, ties to even, 53-bit significand; subnormals by
clamping the scale exponent at 2^-1074; the script's values never
overflow). -/
def roundFPAux (n d : Nat) (E : Int) : FP :=
  let z : Int := floorLog2 n d + E
  let t : Int := max (z - 52) (-1074)
  let s : Int := E - t
  ⟨roundMant (n * 2 ^ s.toNat) (d * 2 ^ (-s).toNat), t⟩

/-- Correct rounding is the identity on representable values: if
(n/d) · 2^E equals M · 2^F with M < 2^53 and F ≥ -1074, the rounded result
is exact. -/
theorem roundFPAux_exact (n d : Nat) (E : Int) (M : Nat) (F : Int)
    (hn : 1 ≤ n) (hd : 1 ≤ d) (hM : M < 2 ^ 53) (hF : -1074 ≤ F)
    (hv : (n:ℚ) / d * (2:ℚ) ^ E = (M:ℚ) * (2:ℚ) ^ F) :
    (roundFPAux n d E).val = (n:ℚ) / d * (2:ℚ) ^ E := by
  have two_ne0 : (2:ℚ) ≠ 0 := by norm_num
  have hb := floorLog2_bounds n d hn hd
  have hd0 : (0:ℚ) < (d:ℚ) := by exact_mod_cast hd
  simp only [roundFPAux]
  set z : Int := floorLog2 n d + E with hz
  set t : Int := max (z - 52) (-1074) with ht
  set s : Int := E - t with hs
  set p : Nat := s.toNat with hp
  set q : Nat := (-s).toNat with hq2
  -- t ≤ F, hence the grid at scale 2^t contains the value exactly
  have hvlo : (2:ℚ) ^ z ≤ (n:ℚ) / d * (2:ℚ) ^ E := by
    rw [hz, zpow_add₀ two_ne0]
    exact mul_le_mul_of_nonneg_right hb.1 (by positivity)
  have htF : t ≤ F := by
    have hlt : (2:ℚ) ^ z < (2:ℚ) ^ (F + 53) := by
      calc (2:ℚ) ^ z ≤ (n:ℚ) / d * (2:ℚ) ^ E := hvlo
        _ = (M:ℚ) * (2:ℚ) ^ F := hv
        _ < (2:ℚ) ^ (53 : ℤ) * (2:ℚ) ^ F := by
            have hMq : (M:ℚ) < (2:ℚ) ^ (53 : ℤ) := by
              rw [show ((53:ℤ)) = ((53 : ℕ) : ℤ) from rfl, zpow_natCast]
              exact_mod_cast hM
            exact mul_lt_mul_of_pos_right hMq (by positivity)
        _ = (2:ℚ) ^ (F + 53) := by
            rw [← zpow_add₀ two_ne0]
            congr 1
            ring
    have hzF : z < F + 53 := (zpow_lt_zpow_iff_right₀ (by norm_num : (1:ℚ) < 2)).mp hlt
    omega
  set k : Nat := (F - t).toNat with hk
  have hkI : (k : ℤ) = F - t := by omega
  have hpqI : (p : ℤ) - (q : ℤ) = s := by omega
  -- cross-multiplied value equation
  have hv2 : (n:ℚ) * (2:ℚ) ^ E = (M:ℚ) * (2:ℚ) ^ F * (d:ℚ) := by
    rw [div_mul_eq_mul_div, div_eq_iff (ne_of_gt hd0)] at hv
    exact hv
  -- the value at scale 2^s
  have hq : (n:ℚ) * (2:ℚ) ^ s = (M:ℚ) * ((2 ^ k : ℕ) : ℚ) * (d:ℚ) := by
    have h3 : (n:ℚ) * (2:ℚ) ^ s = (n:ℚ) * (2:ℚ) ^ E * (2:ℚ) ^ (-t) := by
      rw [mul_assoc, ← zpow_add₀ two_ne0, show E + -t = s from by omega]
    rw [h3, hv2]
    calc (M:ℚ) * (2:ℚ) ^ F * (d:ℚ) * (2:ℚ) ^ (-t)
        = (M:ℚ) * (d:ℚ) * ((2:ℚ) ^ F * (2:ℚ) ^ (-t)) := by ring
      _ = (M:ℚ) * (d:ℚ) * (2:ℚ) ^ (F - t) := by
          rw [← zpow_add₀ two_ne0, ← sub_eq_add_neg]
      _ = (M:ℚ) * (d:ℚ) * ((2 ^ k : ℕ) : ℚ) := by
          rw [show F - t = ((k : ℕ) : ℤ) from by omega, zpow_natCast]
          push_cast
          ring
      _ = (M:ℚ) * ((2 ^ k : ℕ) : ℚ) * (d:ℚ) := by ring
  -- the scaled mantissa is the exact integer d · 2^q · (M · 2^k)
  have h2s : ((2 ^ p : ℕ) : ℚ) = (2:ℚ) ^ s * ((2 ^ q : ℕ) : ℚ) := by
    rw [two_zpow_eq s, show s.toNat = p from rfl, show (-s).toNat = q from rfl]
    have : ((2 ^ q : ℕ) : ℚ) ≠ 0 := by positivity
    field_simp
  have hNdK : n * 2 ^ p = (d * 2 ^ q) * (M * 2 ^ k) := by
    have hql : (n:ℚ) * ((2 ^ p : ℕ) : ℚ)
        = ((d:ℚ) * ((2 ^ q : ℕ) : ℚ)) * ((M:ℚ) * ((2 ^ k : ℕ) : ℚ)) := by
      calc (n:ℚ) * ((2 ^ p : ℕ) : ℚ) = (n:ℚ) * (2:ℚ) ^ s * ((2 ^ q : ℕ) : ℚ) := by
            rw [h2s]
            ring
        _ = (M:ℚ) * ((2 ^ k : ℕ) : ℚ) * (d:ℚ) * ((2 ^ q : ℕ) : ℚ) := by rw [hq]
        _ = ((d:ℚ) * ((2 ^ q : ℕ) : ℚ)) * ((M:ℚ) * ((2 ^ k : ℕ) : ℚ)) := by ring
    exact_mod_cast hql
  rw [hNdK, roundMant_mul _ _ (by positivity)]
  show ((M * 2 ^ k : ℕ) : ℚ) * (2:ℚ) ^ t = (n:ℚ) / d * (2:ℚ) ^ E
  rw [hv]
  push_cast
  rw [← zpow_natCast (2:ℚ) k, mul_assoc, ← zpow_add₀ two_ne0]
  congr 2
  omega

/-- A Python int converted to a double (exact below 2^53). -/
def FP.ofNat (n : Nat) : FP := roundFPAux n 1 0

/-- CPython's int / int true division: the correctly rounded double of the
exact quotient. -/
def fpDivNat (a b : Nat) : FP := roundFPAux a b 0

/-- IEEE double addition: round the exact sum (computed at the smaller
exponent, where both operands have integer mantissas). -/
def FP.add (x y : FP) : FP :=
  let e := min x.e y.e
  roundFPAux (x.m * 2 ^ (x.e - e).toNat + y.m * 2 ^ (y.e - e).toNat) 1 e

/-- IEEE double subtraction of a smaller nonnegative value from a larger
one: round the exact difference. -/
def FP.sub (x y : FP) : FP :=
  let e := min x.e y.e
  roundFPAux (x.m * 2 ^ (x.e - e).toNat - y.m * 2 ^ (y.e - e).toNat) 1 e

/-- IEEE double multiplication: round the exact product. -/
def FP.mul (x y : FP) : FP := roundFPAux (x.m * y.m) 1 (x.e + y.e)

/-- Python int() of a nonnegative double: truncation toward zero, here the
floor. -/
def FP.floorNat (x : FP) : Nat :=
  if 0 ≤ x.e then x.m * 2 ^ x.e.toNat else x.m / 2 ^ (-x.e).toNat

/-- A positive value forces a positive mantissa. -/
theorem FP.val_pos_mantissa (x : FP) (h : 0 < x.val) : 1 ≤ x.m := by
  by_contra hm
  have : x.m = 0 := by omega
  rw [FP.val, this] at h
  simp at h

theorem FP.ofNat_exact (n : Nat) (h1 : 1 ≤ n) (h2 : n < 2 ^ 53) :
    (FP.ofNat n).val = (n : ℚ) := by
  have := roundFPAux_exact n 1 0 n 0 h1 (le_refl 1) h2 (by norm_num)
    (by push_cast; ring)
  rw [FP.ofNat, this]
  push_cast
  ring

theorem fpDivNat_exact (a b : Nat) (M : Nat) (F : Int) (ha : 1 ≤ a) (hb : 1 ≤ b)
    (hM : M < 2 ^ 53) (hF : -1074 ≤ F) (hv : (a:ℚ) / b = (M:ℚ) * (2:ℚ) ^ F) :
    (fpDivNat a b).val = (a:ℚ) / b := by
  have := roundFPAux_exact a b 0 M F ha hb hM hF (by rw [zpow_zero, mul_one]; exact hv)
  rw [fpDivNat, this, zpow_zero, mul_one]

theorem FP.mul_exact (x y : FP) (M : Nat) (F : Int)
    (hx : 1 ≤ x.m) (hy : 1 ≤ y.m) (hM : M < 2 ^ 53) (hF : -1074 ≤ F)
    (hv : x.val * y.val = (M:ℚ) * (2:ℚ) ^ F) :
    (FP.mul x y).val = x.val * y.val := by
  have hval : ((x.m * y.m : ℕ) : ℚ) / (1:ℕ) * (2:ℚ) ^ (x.e + y.e) = x.val * y.val := by
    rw [FP.val, FP.val, zpow_add₀ (by norm_num : (2:ℚ) ≠ 0)]
    push_cast
    ring
  have := roundFPAux_exact (x.m * y.m) 1 (x.e + y.e) M F
    (Nat.one_le_iff_ne_zero.mpr (by positivity)) (le_refl 1) hM hF
    (by simpa using hval.trans hv)
  rw [FP.mul, this]
  simpa using hval

theorem FP.add_exact (x y : FP) (M : Nat) (F : Int)
    (hxy : 1 ≤ x.m + y.m) (hM : M < 2 ^ 53) (hF : -1074 ≤ F)
    (hv : x.val + y.val = (M:ℚ) * (2:ℚ) ^ F) :
    (FP.add x y).val = x.val + y.val := by
  have two_ne0 : (2:ℚ) ≠ 0 := by norm_num
  rw [FP.add]
  set e : Int := min x.e y.e with he
  have hterm : ∀ w : FP, e ≤ w.e →
      ((w.m * 2 ^ (w.e - e).toNat : ℕ) : ℚ) * (2:ℚ) ^ e = w.val := by
    intro w hw
    push_cast
    rw [FP.val, mul_assoc, ← zpow_natCast (2:ℚ) (w.e - e).toNat,
      ← zpow_add₀ two_ne0]
    congr 2
    omega
  have hvx := hterm x (min_le_left _ _)
  have hvy := hterm y (min_le_right _ _)
  have hval : ((x.m * 2 ^ (x.e - e).toNat + y.m * 2 ^ (y.e - e).toNat : ℕ) : ℚ) / ((1:ℕ):ℚ)
      * (2:ℚ) ^ e = x.val + y.val := by
    rw [show ((1:ℕ):ℚ) = 1 from rfl, div_one]
    push_cast [← hvx, ← hvy]
    ring
  have hone : (1:ℕ) ≤ x.m * 2 ^ (x.e - e).toNat + y.m * 2 ^ (y.e - e).toNat := by
    have h1 : x.m ≤ x.m * 2 ^ (x.e - e).toNat := by
      calc x.m = x.m * 1 := by ring
        _ ≤ x.m * 2 ^ (x.e - e).toNat := Nat.mul_le_mul_left _ Nat.one_le_two_pow
    have h2 : y.m ≤ y.m * 2 ^ (y.e - e).toNat := by
      calc y.m = y.m * 1 := by ring
        _ ≤ y.m * 2 ^ (y.e - e).toNat := Nat.mul_le_mul_left _ Nat.one_le_two_pow
    omega
  have := roundFPAux_exact (x.m * 2 ^ (x.e - e).toNat + y.m * 2 ^ (y.e - e).toNat) 1 e M F
    hone (le_refl 1) hM hF (by simpa using hval.trans hv)
  rw [this]
  simpa using hval

theorem FP.sub_exact (x y : FP) (M : Nat) (F : Int)
    (hM1 : 1 ≤ M) (hM : M < 2 ^ 53) (hF : -1074 ≤ F)
    (hv : x.val - y.val = (M:ℚ) * (2:ℚ) ^ F) :
    (FP.sub x y).val = x.val - y.val := by
  have two_ne0 : (2:ℚ) ≠ 0 := by norm_num
  rw [FP.sub]
  set e : Int := min x.e y.e with he
  have hterm : ∀ w : FP, e ≤ w.e →
      ((w.m * 2 ^ (w.e - e).toNat : ℕ) : ℚ) * (2:ℚ) ^ e = w.val := by
    intro w hw
    push_cast
    rw [FP.val, mul_assoc, ← zpow_natCast (2:ℚ) (w.e - e).toNat,
      ← zpow_add₀ two_ne0]
    congr 2
    omega
  have hvx := hterm x (min_le_left _ _)
  have hvy := hterm y (min_le_right _ _)
  have hpos : (0:ℚ) < x.val - y.val := by
    rw [hv]
    have : (1:ℚ) ≤ (M:ℚ) := by exact_mod_cast hM1
    have h2 : (0:ℚ) < (2:ℚ) ^ F := by positivity
    nlinarith
  have hba : y.m * 2 ^ (y.e - e).toNat ≤ x.m * 2 ^ (x.e - e).toNat := by
    have hq : ((y.m * 2 ^ (y.e - e).toNat : ℕ) : ℚ) < ((x.m * 2 ^ (x.e - e).toNat : ℕ) : ℚ) := by
      have h2 : (0:ℚ) < (2:ℚ) ^ e := by positivity
      have := hpos
      rw [← hvx, ← hvy] at this
      nlinarith
    exact_mod_cast le_of_lt hq
  have hval : ((x.m * 2 ^ (x.e - e).toNat - y.m * 2 ^ (y.e - e).toNat : ℕ) : ℚ) / ((1:ℕ):ℚ)
      * (2:ℚ) ^ e = x.val - y.val := by
    rw [show ((1:ℕ):ℚ) = 1 from rfl, div_one, Nat.cast_sub hba, ← hvx, ← hvy]
    ring
  have hone : (1:ℕ) ≤ x.m * 2 ^ (x.e - e).toNat - y.m * 2 ^ (y.e - e).toNat := by
    by_contra hc
    have h0 : x.m * 2 ^ (x.e - e).toNat - y.m * 2 ^ (y.e - e).toNat = 0 := by omega
    rw [h0] at hval
    rw [show ((0:ℕ):ℚ) = 0 from rfl] at hval
    simp at hval
    rw [← hval] at hpos
    simp at hpos
  have := roundFPAux_exact (x.m * 2 ^ (x.e - e).toNat - y.m * 2 ^ (y.e - e).toNat) 1 e M F
    hone (le_refl 1) hM hF (by simpa using hval.trans hv)
  rw [this]
  simpa using hval

theorem roundMant_zero (D : Nat) (hD : 0 < D) : roundMant 0 D = 0 := by
  rw [roundMant]
  simp only [Nat.zero_div, Nat.zero_mod, Nat.mul_zero]
  rw [if_pos (by omega)]

theorem FP.mul_zero_left_val (x w : FP) (hx : x.m = 0) : (FP.mul x w).val = 0 := by
  rw [FP.mul]
  simp only [roundFPAux]
  rw [hx, Nat.zero_mul, Nat.zero_mul, roundMant_zero _ (by positivity), FP.val]
  simp

theorem FP.floorNat_div (x : FP) (a b : Nat) (hb : 0 < b) (hv : x.val = (a:ℚ) / b) :
    x.floorNat = a / b := by
  have hbq : (0:ℚ) < (b:ℚ) := by exact_mod_cast hb
  rw [FP.floorNat]
  by_cases hev : 0 ≤ x.e
  · rw [if_pos hev]
    have hc : ((x.m * 2 ^ x.e.toNat : ℕ) : ℚ) = (a:ℚ) / b := by
      rw [← hv, FP.val]
      push_cast
      rw [← zpow_natCast (2:ℚ) x.e.toNat]
      congr 2
      omega
    have hab : (x.m * 2 ^ x.e.toNat) * b = a := by
      have : ((x.m * 2 ^ x.e.toNat : ℕ) : ℚ) * b = a := by
        rw [hc]
        field_simp
      exact_mod_cast this
    rw [← hab, Nat.mul_div_cancel _ hb]
  · rw [if_neg hev]
    have h2q : (0:ℚ) < ((2 ^ (-x.e).toNat : ℕ) : ℚ) := by positivity
    have hc : (x.m : ℚ) / ((2 ^ (-x.e).toNat : ℕ) : ℚ) = (a:ℚ) / b := by
      rw [← hv, FP.val, two_zpow_eq x.e, show x.e.toNat = 0 from by omega]
      norm_num
      rw [div_eq_mul_inv]
    have hmb : x.m * b = a * 2 ^ (-x.e).toNat := by
      have : (x.m : ℚ) * b = (a:ℚ) * ((2 ^ (-x.e).toNat : ℕ) : ℚ) := by
        rw [div_eq_div_iff (ne_of_gt h2q) (ne_of_gt hbq)] at hc
        exact hc
      exact_mod_cast this
    calc x.m / 2 ^ (-x.e).toNat
        = x.m * b / (2 ^ (-x.e).toNat * b) := (Nat.mul_div_mul_right _ _ hb).symm
      _ = a * 2 ^ (-x.e).toNat / (2 ^ (-x.e).toNat * b) := by rw [hmb]
      _ = 2 ^ (-x.e).toNat * a / (2 ^ (-x.e).toNat * b) := by rw [Nat.mul_comm a _]
      _ = a / b := Nat.mul_div_mul_left _ _ (by positivity)

theorem FP.mul_zero_right_val (x w : FP) (hw : w.m = 0) : (FP.mul x w).val = 0 := by
  rw [FP.mul]
  simp only [roundFPAux]
  rw [hw, Nat.mul_zero, Nat.zero_mul, roundMant_zero _ (by positivity), FP.val]
  simp

theorem FP.mul_zero_left_m (x w : FP) (hx : x.m = 0) : (FP.mul x w).m = 0 := by
  rw [FP.mul]
  simp only [roundFPAux]
  rw [hx, Nat.zero_mul, Nat.zero_mul, roundMant_zero _ (by positivity)]

theorem FP.mul_zero_right_m (x w : FP) (hw : w.m = 0) : (FP.mul x w).m = 0 := by
  rw [FP.mul]
  simp only [roundFPAux]
  rw [hw, Nat.mul_zero, Nat.zero_mul, roundMant_zero _ (by positivity)]

theorem FP.add_zero_val (x y : FP) (hx : x.m = 0) (hy : y.m = 0) :
    (FP.add x y).val = 0 := by
  rw [FP.add]
  simp only [roundFPAux]
  rw [hx, hy, Nat.zero_mul, Nat.zero_mul, Nat.add_zero, Nat.zero_mul,
    roundMant_zero _ (by positivity), FP.val]
  simp

/-- `ratio = y / size[1]` in IEEE doubles. -/
def ratio_fp (y h : Nat) : FP := fpDivNat y h

/-- `int(255 * (1 - ratio) + 75 * ratio)` evaluated in IEEE doubles. -/
def gradR_fp (y h : Nat) : Nat :=
  (FP.add (FP.mul (FP.ofNat 255) (FP.sub (FP.ofNat 1) (ratio_fp y h)))
          (FP.mul (FP.ofNat 75) (ratio_fp y h))).floorNat

/-- `int(140 * (1 - ratio) + 0 * ratio)` evaluated in IEEE doubles. -/
def gradG_fp (y h : Nat) : Nat :=
  (FP.add (FP.mul (FP.ofNat 140) (FP.sub (FP.ofNat 1) (ratio_fp y h)))
          (FP.mul (FP.ofNat 0) (ratio_fp y h))).floorNat

/-- `int(0 * (1 - ratio) + 130 * ratio)` evaluated in IEEE doubles. -/
def gradB_fp (y h : Nat) : Nat :=
  (FP.add (FP.mul (FP.ofNat 0) (FP.sub (FP.ofNat 1) (ratio_fp y h)))
          (FP.mul (FP.ofNat 130) (ratio_fp y h))).floorNat

set_option maxHeartbeats 8000000 in
/-- At the script's height 1024 every intermediate double is exactly
representable (all denominators are 2^10 and all numerators below 2^18),
so the float-evaluated channels coincide with the floor of the exact
rational blend. -/
theorem grad_fp_1024_eq (y : Nat) (hy : y < 1024) :
    gradR_fp y 1024 = gradR y 1024 ∧ gradG_fp y 1024 = gradG y 1024 ∧
    gradB_fp y 1024 = gradB y 1024 := by
  have hpow : (2:ℚ) ^ (-10 : ℤ) = 1 / 1024 := by
    rw [show ((-10):ℤ) = -((10:ℕ):ℤ) from by norm_num, zpow_neg, zpow_natCast]
    norm_num
  have hyQ : (y:ℚ) < 1024 := by exact_mod_cast hy
  have hyQ0 : (0:ℚ) ≤ (y:ℚ) := by positivity
  have hycast : ((1024 - y : ℕ) : ℚ) = 1024 - (y:ℚ) := by
    rw [Nat.cast_sub (by omega)]
    norm_num
  -- the ratio and its complement
  have hr : (ratio_fp y 1024).val = (y:ℚ) / 1024 := by
    by_cases h0 : y = 0
    · subst h0
      rw [show (ratio_fp 0 1024).val = 0 from by
        rw [ratio_fp, fpDivNat]
        simp only [roundFPAux]
        rw [Nat.zero_mul, roundMant_zero _ (by positivity), FP.val]
        simp]
      norm_num
    · exact fpDivNat_exact y 1024 y (-10) (by omega) (by norm_num)
        (lt_trans hy (by norm_num)) (by norm_num)
        (by rw [hpow]; ring)
  have h1v : (FP.ofNat 1).val = 1 := by
    have := FP.ofNat_exact 1 (le_refl 1) (by norm_num)
    rw [this]
    norm_num
  have hsub : (FP.sub (FP.ofNat 1) (ratio_fp y 1024)).val = 1 - (y:ℚ) / 1024 := by
    have := FP.sub_exact (FP.ofNat 1) (ratio_fp y 1024) (1024 - y) (-10)
      (by omega) (lt_of_le_of_lt (Nat.sub_le _ _) (by norm_num)) (by norm_num)
      (by rw [h1v, hr, hpow, hycast]; field_simp; try ring)
    rw [this, h1v, hr]
  have hsubm : 1 ≤ (FP.sub (FP.ofNat 1) (ratio_fp y 1024)).m := by
    apply FP.val_pos_mantissa
    rw [hsub]
    have : (y:ℚ) / 1024 < 1 := by
      rw [div_lt_one (by norm_num)]
      exact hyQ
    linarith
  -- helper for the constant factors
  have hofNat : ∀ c : Nat, 1 ≤ c → c < 2 ^ 53 →
      (FP.ofNat c).val = (c:ℚ) ∧ 1 ≤ (FP.ofNat c).m := by
    intro c h1 h2
    have hv := FP.ofNat_exact c h1 h2
    refine ⟨hv, FP.val_pos_mantissa _ (by rw [hv]; exact_mod_cast h1)⟩
  have h255 := hofNat 255 (by norm_num) (by norm_num)
  have h140 := hofNat 140 (by norm_num) (by norm_num)
  have h130 := hofNat 130 (by norm_num) (by norm_num)
  have h75 := hofNat 75 (by norm_num) (by norm_num)
  have hm255 : (FP.mul (FP.ofNat 255) (FP.sub (FP.ofNat 1) (ratio_fp y 1024))).val
      = 255 * (1 - (y:ℚ) / 1024) := by
    have := FP.mul_exact (FP.ofNat 255) (FP.sub (FP.ofNat 1) (ratio_fp y 1024))
      (255 * (1024 - y)) (-10) h255.2 hsubm
      (by calc 255 * (1024 - y) ≤ 255 * 1024 := by omega
            _ < 2 ^ 53 := by norm_num)
      (by norm_num)
      (by rw [h255.1, hsub, hpow]
          push_cast [Nat.cast_sub (show y ≤ 1024 from by omega)]
          field_simp
          try ring)
    rw [this, h255.1, hsub]
    push_cast
    ring
  have hm140 : (FP.mul (FP.ofNat 140) (FP.sub (FP.ofNat 1) (ratio_fp y 1024))).val
      = 140 * (1 - (y:ℚ) / 1024) := by
    have := FP.mul_exact (FP.ofNat 140) (FP.sub (FP.ofNat 1) (ratio_fp y 1024))
      (140 * (1024 - y)) (-10) h140.2 hsubm
      (by calc 140 * (1024 - y) ≤ 140 * 1024 := by omega
            _ < 2 ^ 53 := by norm_num)
      (by norm_num)
      (by rw [h140.1, hsub, hpow]
          push_cast [Nat.cast_sub (show y ≤ 1024 from by omega)]
          field_simp
          try ring)
    rw [this, h140.1, hsub]
    push_cast
    ring
  have hzm : (FP.ofNat 0).m = 0 := by
    rw [FP.ofNat]
    simp only [roundFPAux]
    rw [Nat.zero_mul, roundMant_zero _ (by positivity)]
  have hrm0 : y = 0 → (ratio_fp y 1024).m = 0 := by
    intro h0
    subst h0
    rw [ratio_fp, fpDivNat]
    simp only [roundFPAux]
    rw [Nat.zero_mul, roundMant_zero _ (by positivity)]
  have hm255pos : 1 ≤ (FP.mul (FP.ofNat 255) (FP.sub (FP.ofNat 1) (ratio_fp y 1024))).m := by
    apply FP.val_pos_mantissa
    rw [hm255]
    have h1 : (0:ℚ) < 1 - (y:ℚ) / 1024 := by
      rw [sub_pos, div_lt_one (by norm_num)]
      exact hyQ
    exact mul_pos (by norm_num) h1
  have hm140pos : 1 ≤ (FP.mul (FP.ofNat 140) (FP.sub (FP.ofNat 1) (ratio_fp y 1024))).m := by
    apply FP.val_pos_mantissa
    rw [hm140]
    have h1 : (0:ℚ) < 1 - (y:ℚ) / 1024 := by
      rw [sub_pos, div_lt_one (by norm_num)]
      exact hyQ
    exact mul_pos (by norm_num) h1
  have hv75 : (FP.mul (FP.ofNat 75) (ratio_fp y 1024)).val = 75 * ((y:ℚ) / 1024) := by
    by_cases h0 : y = 0
    · rw [FP.mul_zero_right_val _ _ (hrm0 h0), h0]
      norm_num
    · have hrm : 1 ≤ (ratio_fp y 1024).m := by
        apply FP.val_pos_mantissa
        rw [hr]
        have : (0:ℚ) < (y:ℚ) := by exact_mod_cast Nat.pos_of_ne_zero h0
        positivity
      have := FP.mul_exact (FP.ofNat 75) (ratio_fp y 1024) (75 * y) (-10) h75.2 hrm
        (by calc 75 * y ≤ 75 * 1024 := by omega
              _ < 2 ^ 53 := by norm_num)
        (by norm_num)
        (by rw [h75.1, hr, hpow]; push_cast; field_simp; try ring)
      rw [this, h75.1, hr]
      push_cast
      ring
  have hv130 : (FP.mul (FP.ofNat 130) (ratio_fp y 1024)).val = 130 * ((y:ℚ) / 1024) := by
    by_cases h0 : y = 0
    · rw [FP.mul_zero_right_val _ _ (hrm0 h0), h0]
      norm_num
    · have hrm : 1 ≤ (ratio_fp y 1024).m := by
        apply FP.val_pos_mantissa
        rw [hr]
        have : (0:ℚ) < (y:ℚ) := by exact_mod_cast Nat.pos_of_ne_zero h0
        positivity
      have := FP.mul_exact (FP.ofNat 130) (ratio_fp y 1024) (130 * y) (-10) h130.2 hrm
        (by calc 130 * y ≤ 130 * 1024 := by omega
              _ < 2 ^ 53 := by norm_num)
        (by norm_num)
        (by rw [h130.1, hr, hpow]; push_cast; field_simp; try ring)
      rw [this, h130.1, hr]
      push_cast
      ring
  have hvz0 : (FP.mul (FP.ofNat 0) (ratio_fp y 1024)).val = 0 :=
    FP.mul_zero_left_val _ _ hzm
  have hvz1 : (FP.mul (FP.ofNat 0) (FP.sub (FP.ofNat 1) (ratio_fp y 1024))).val = 0 :=
    FP.mul_zero_left_val _ _ hzm
  have hsumR : (FP.add (FP.mul (FP.ofNat 255) (FP.sub (FP.ofNat 1) (ratio_fp y 1024)))
      (FP.mul (FP.ofNat 75) (ratio_fp y 1024))).val
      = 255 * (1 - (y:ℚ) / 1024) + 75 * ((y:ℚ) / 1024) := by
    have := FP.add_exact (FP.mul (FP.ofNat 255) (FP.sub (FP.ofNat 1) (ratio_fp y 1024)))
      (FP.mul (FP.ofNat 75) (ratio_fp y 1024)) (255 * (1024 - y) + 75 * y) (-10)
      (by omega)
      (by calc 255 * (1024 - y) + 75 * y ≤ 255 * 1024 + 75 * 1024 := by omega
            _ < 2 ^ 53 := by norm_num)
      (by norm_num)
      (by rw [hm255, hv75, hpow]
          push_cast [Nat.cast_sub (show y ≤ 1024 from by omega)]
          field_simp
          try ring)
    rw [this, hm255, hv75]
  have hsumG : (FP.add (FP.mul (FP.ofNat 140) (FP.sub (FP.ofNat 1) (ratio_fp y 1024)))
      (FP.mul (FP.ofNat 0) (ratio_fp y 1024))).val
      = 140 * (1 - (y:ℚ) / 1024) + 0 := by
    have := FP.add_exact (FP.mul (FP.ofNat 140) (FP.sub (FP.ofNat 1) (ratio_fp y 1024)))
      (FP.mul (FP.ofNat 0) (ratio_fp y 1024)) (140 * (1024 - y)) (-10)
      (by omega)
      (by calc 140 * (1024 - y) ≤ 140 * 1024 := by omega
            _ < 2 ^ 53 := by norm_num)
      (by norm_num)
      (by rw [hm140, hvz0, hpow]
          push_cast [Nat.cast_sub (show y ≤ 1024 from by omega)]
          field_simp
          try ring)
    rw [this, hm140, hvz0]
  have hsumB : (FP.add (FP.mul (FP.ofNat 0) (FP.sub (FP.ofNat 1) (ratio_fp y 1024)))
      (FP.mul (FP.ofNat 130) (ratio_fp y 1024))).val
      = 0 + 130 * ((y:ℚ) / 1024) := by
    by_cases h0 : y = 0
    · have hz1 : (FP.mul (FP.ofNat 0) (FP.sub (FP.ofNat 1) (ratio_fp y 1024))).m = 0 :=
        FP.mul_zero_left_m _ _ hzm
      have hz2 : (FP.mul (FP.ofNat 130) (ratio_fp y 1024)).m = 0 :=
        FP.mul_zero_right_m _ _ (hrm0 h0)
      rw [FP.add_zero_val _ _ hz1 hz2, h0]
      norm_num
    · have hm130pos : 1 ≤ (FP.mul (FP.ofNat 130) (ratio_fp y 1024)).m := by
        apply FP.val_pos_mantissa
        rw [hv130]
        have : (0:ℚ) < (y:ℚ) := by exact_mod_cast Nat.pos_of_ne_zero h0
        positivity
      have := FP.add_exact (FP.mul (FP.ofNat 0) (FP.sub (FP.ofNat 1) (ratio_fp y 1024)))
        (FP.mul (FP.ofNat 130) (ratio_fp y 1024)) (130 * y) (-10)
        (by omega)
        (by calc 130 * y ≤ 130 * 1024 := by omega
              _ < 2 ^ 53 := by norm_num)
        (by norm_num)
        (by rw [hvz1, hv130, hpow]; push_cast; field_simp; try ring)
      rw [this, hvz1, hv130]
  rw [gradR_fp, gradG_fp, gradB_fp, gradR, gradG, gradB]
  refine ⟨?_, ?_, ?_⟩
  · exact FP.floorNat_div _ (255 * (1024 - y) + 75 * y) 1024 (by norm_num)
      (by rw [hsumR]
          push_cast [Nat.cast_sub (show y ≤ 1024 from by omega)]
          field_simp
          try ring)
  · exact FP.floorNat_div _ (140 * (1024 - y) + 0 * y) 1024 (by norm_num)
      (by rw [hsumG]
          push_cast [Nat.cast_sub (show y ≤ 1024 from by omega)]
          field_simp
          try ring)
  · exact FP.floorNat_div _ (0 * (1024 - y) + 130 * y) 1024 (by norm_num)
      (by rw [hsumB]
          push_cast [Nat.cast_sub (show y ≤ 1024 from by omega)]
          field_simp
          try ring)


/-- The drawing calls issued by the gradient loop with the program's IEEE
double channel values: for each row y one full-width horizontal line. -/
def gradient_cmds_fp (w h : Nat) : List (Shape × Fill) :=
  (List.range h).map fun (y : Nat) =>
    (Shape.line 0 (y : Int) (w : Int) (y : Int),
     Fill.rgb (gradR_fp y h) (gradG_fp y h) (gradB_fp y h))

/-- `create_gradient_background((w, h))` under faithful IEEE double
semantics: the gradient canvas with float-evaluated row colors. -/
def create_gradient_background_fp (w h : Nat) : Canvas :=
  applyCmds (blank w h) (gradient_cmds_fp w h)

/-- The float-semantics gradient paints pixel (X, y) (0 ≤ X ≤ w, y < h)
with exactly the row-y float-evaluated color. -/
theorem gradient_pix_fp (w h : Nat) (X : Int) (y : Nat) (hy : y < h)
    (hX0 : 0 ≤ X) (hXw : X ≤ (w : Int)) :
    (create_gradient_background_fp w h).pix X (y : Int)
      = (gradR_fp y h, gradG_fp y h, gradB_fp y h) := by
  obtain ⟨k, rfl⟩ : ∃ k, h = (y + 1) + k := ⟨h - (y + 1), by omega⟩
  have hrange : List.range ((y + 1) + k)
      = List.range y ++ y :: (List.range k).map (fun i => (y + 1) + i) := by
    rw [List.range_add, List.range_succ]
    simp
  rw [create_gradient_background_fp, applyCmds_pix, gradient_cmds_fp, hrange,
    List.map_append, List.map_cons]
  have hfire : (Shape.line 0 (y : Int) (w : Int) (y : Int)).covers X (y : Int) = true := by
    simp only [Shape.covers, decide_eq_true_eq, min_le_iff, le_max_iff]
    exact ⟨trivial, trivial, Or.inl hX0, Or.inr hXw⟩
  have hinert : ∀ cmd ∈ ((List.range k).map (fun i => (y + 1) + i)).map
      (fun (r : Nat) => (Shape.line 0 (r : Int) (w : Int) (r : Int),
        Fill.rgb (gradR_fp r ((y + 1) + k)) (gradG_fp r ((y + 1) + k))
          (gradB_fp r ((y + 1) + k)))),
      cmd.1.covers X (y : Int) = false := by
    intro cmd hcmd
    simp only [List.map_map, List.mem_map, List.mem_range, Function.comp] at hcmd
    obtain ⟨i, hi, rfl⟩ := hcmd
    simp only [Shape.covers, decide_eq_false_iff_not]
    rintro ⟨-, h2, -⟩
    omega
  rw [foldl_paint_last _ _ _ _ _ _ hfire hinert]
  rfl


theorem makedirs_files (fs : FS) (d : String) : (makedirs fs d).files = fs.files := by
  by_cases h : d ∈ fs.dirs <;> simp [makedirs, h]

theorem makedirs_idem (fs : FS) (d : String) :
    makedirs (makedirs fs d) d = makedirs fs d := by
  by_cases h : d ∈ fs.dirs <;> simp [makedirs, h]

/-- When no write fails, the loop writes every entry in order and reports
no error. -/
theorem writeLoop_ok (fails : String → Bool) (dir : String) (l : List (String × Nat))
    (st : GenState) (h : ∀ e ∈ l, fails (joinPath dir e.1) = false) :
    writeLoop fails dir l st =
      ({ st with fs := { st.fs with files := st.fs.files
            ++ (l.map fun e => (joinPath dir e.1, resize st.base_image e.2 e.2)) } }, none) := by
  induction l generalizing st with
  | nil => simp [writeLoop]
  | cons e rest ih =>
      obtain ⟨nm, s⟩ := e
      have h0 : fails (joinPath dir nm) = false := h _ (List.mem_cons_self _ _)
      rw [writeLoop]
      simp only [h0, Bool.false_eq_true, if_false]
      rw [ih _ (fun e he => h e (List.mem_cons_of_mem _ he))]
      simp

/-- A failing write aborts the loop: the error propagates, exactly the
entries before the failing one are on disk, and nothing is cleaned up. -/
theorem writeLoop_abort (fails : String → Bool) (dir : String)
    (pre post : List (String × Nat)) (nm : String) (s : Nat) (st : GenState)
    (hpre : ∀ e ∈ pre, fails (joinPath dir e.1) = false)
    (hfail : fails (joinPath dir nm) = true) :
    writeLoop fails dir (pre ++ (nm, s) :: post) st =
      ({ st with fs := { st.fs with files := st.fs.files
            ++ (pre.map fun e => (joinPath dir e.1, resize st.base_image e.2 e.2)) } },
       some (joinPath dir nm)) := by
  induction pre generalizing st with
  | nil =>
      simp only [List.nil_append]
      rw [writeLoop]
      simp [hfail]
  | cons e rest ih =>
      obtain ⟨nm2, s2⟩ := e
      have h0 : fails (joinPath dir nm2) = false := hpre _ (List.mem_cons_self _ _)
      rw [List.cons_append, writeLoop]
      simp only [h0, Bool.false_eq_true, if_false]
      rw [ih _ (fun e he => hpre e (List.mem_cons_of_mem _ he))]
      simp

/-- The loop never touches the base image, wherever it stops. -/
theorem writeLoop_base (fails : String → Bool) (dir : String)
    (l : List (String × Nat)) (st : GenState) :
    (writeLoop fails dir l st).1.base_image = st.base_image := by
  induction l generalizing st with
  | nil => rfl
  | cons e rest ih =>
      obtain ⟨nm, s⟩ := e
      by_cases h : fails (joinPath dir nm) = true
      · simp [writeLoop, h]
      · simp only [writeLoop, h, Bool.false_eq_true, if_false]
        rw [ih]

/-- C1: for every requested size S the master bitmap built by `create_icon`
is square with exactly S × S pixels (the gradient is created at (S, S) and
drawing never changes dimensions); the end-to-end run generates the master
at 1024, which occurs in the size table and is its largest edge length. -/
theorem create_icon_master_square (s : Nat) :
    (create_icon s).width = s ∧ (create_icon s).height = s ∧
    main_icon = create_icon 1024 ∧
    1024 ∈ sizes.map Prod.snd ∧ ∀ v ∈ sizes.map Prod.snd, v ≤ 1024 := by
  refine ⟨?_, ?_, rfl, by decide, by decide⟩
  · simp [create_icon, draw_music_note, applyCmd_width, applyCmds_width,
      create_gradient_background, blank]
  · simp [create_icon, draw_music_note, applyCmd_height, applyCmds_height,
      create_gradient_background, blank]

/-- C4: the size table is a static map of exactly 12 filename-to-edge
entries whose values in declaration order are 1024,180,167,152,120,87,80,
76,60,58,40,29, and on a run with no write failure the batch resizer writes
for every entry an output bitmap whose width and height equal that entry's
edge length. -/
theorem sizes_table_and_output_dims (st : GenState) (dir : String) :
    sizes.length = 12 ∧
    sizes.map Prod.snd = [1024, 180, 167, 152, 120, 87, 80, 76, 60, 58, 40, 29] ∧
    (generate_all_sizes (fun _ => false) st dir).2 = none ∧
    (generate_all_sizes (fun _ => false) st dir).1.fs.files
      = st.fs.files ++ (sizes.map fun e => (joinPath dir e.1, resize st.base_image e.2 e.2)) ∧
    ∀ e ∈ sizes, (resize st.base_image e.2 e.2).width = e.2
        ∧ (resize st.base_image e.2 e.2).height = e.2 := by
  refine ⟨rfl, rfl, ?_, ?_, fun e _ => ⟨rfl, rfl⟩⟩
  · rw [generate_all_sizes, writeLoop_ok _ _ _ _ (fun e _ => rfl)]
  · rw [generate_all_sizes, writeLoop_ok _ _ _ _ (fun e _ => rfl)]
    simp [makedirs_files]

/-- C5: the batch resizer first ensures the output directory exists with an
idempotent create, then iterates the size table in declaration order; a
write failure propagates immediately as the raised error, exactly the
entries before the failing one having been written — nothing after it is
written, nothing is retried, and the already-written files stay in place. -/
theorem generate_all_sizes_abort (fails : String → Bool) (st : GenState)
    (dir : String) (pre post : List (String × Nat)) (nm : String) (s : Nat)
    (hsplit : sizes = pre ++ (nm, s) :: post)
    (hpre : ∀ e ∈ pre, fails (joinPath dir e.1) = false)
    (hfail : fails (joinPath dir nm) = true) :
    makedirs (makedirs st.fs dir) dir = makedirs st.fs dir ∧
    generate_all_sizes fails st dir
      = ({ base_image := st.base_image,
           fs := { dirs := (makedirs st.fs dir).dirs,
                   files := st.fs.files
                     ++ (pre.map fun e => (joinPath dir e.1, resize st.base_image e.2 e.2)) } },
         some (joinPath dir nm)) := by
  refine ⟨makedirs_idem _ _, ?_⟩
  rw [generate_all_sizes, hsplit, writeLoop_abort _ _ _ _ _ _ _ hpre hfail]
  simp [makedirs_files]

/-- Witness for C5: a run where writing Icon-167.png fails aborts with that
path, having written exactly Icon-1024.png and Icon-180.png. -/
theorem generate_all_sizes_abort_witness :
    makedirs (makedirs (FS.mk [] []) "AppIcons") "AppIcons"
      = makedirs (FS.mk [] []) "AppIcons" ∧
    generate_all_sizes (fun p => p == "AppIcons/Icon-167.png")
        ⟨blank 4 4, FS.mk [] []⟩ "AppIcons"
      = ({ base_image := blank 4 4,
           fs := { dirs := (makedirs (FS.mk [] []) "AppIcons").dirs,
                   files := ([] : List (String × Canvas))
                     ++ ([("Icon-1024.png", 1024), ("Icon-180.png", 180)].map
                          fun e => (joinPath "AppIcons" e.1, resize (blank 4 4) e.2 e.2)) } },
         some (joinPath "AppIcons" "Icon-167.png")) :=
  generate_all_sizes_abort (fun p => p == "AppIcons/Icon-167.png")
    ⟨blank 4 4, FS.mk [] []⟩ "AppIcons"
    [("Icon-1024.png", 1024), ("Icon-180.png", 180)]
    [("Icon-152.png", 152), ("Icon-120.png", 120), ("Icon-87.png", 87),
     ("Icon-80.png", 80), ("Icon-76.png", 76), ("Icon-60.png", 60),
     ("Icon-58.png", 58), ("Icon-40.png", 40), ("Icon-29.png", 29)]
    "Icon-167.png" 167 (by decide) (by decide) (by decide)

/-- C10: the batch resizer never modifies the base canvas: whether the run
completes or aborts on a write failure, the base image in the final state —
including its pixel data — is exactly the one handed in; every output is a
fresh bitmap built by `resize`. -/
theorem generate_all_sizes_frame (fails : String → Bool) (st : GenState) (dir : String) :
    (generate_all_sizes fails st dir).1.base_image = st.base_image ∧
    (generate_all_sizes fails st dir).1.base_image.pix = st.base_image.pix := by
  constructor
  · rw [generate_all_sizes]
    exact writeLoop_base fails dir sizes _
  · rw [generate_all_sizes, writeLoop_base fails dir sizes _]

/-- C8: determinism — the generator is pure: two runs from the same
constants yield the identical master bitmap, hence identical resized copies
and identical batch-resizer outcomes. -/
theorem generator_deterministic (s k : Nat) (fails : String → Bool)
    (fs : FS) (dir : String) (c1 c2 : Canvas)
    (h1 : c1 = create_icon s) (h2 : c2 = create_icon s) :
    c1 = c2 ∧ resize c1 k k = resize c2 k k ∧
    generate_all_sizes fails ⟨c1, fs⟩ dir = generate_all_sizes fails ⟨c2, fs⟩ dir := by
  subst h1 h2
  exact ⟨rfl, rfl, rfl⟩

/-- Witness for C8 at size 8 with resize edge 4. -/
theorem generator_deterministic_witness :
    create_icon 8 = create_icon 8 ∧
    resize (create_icon 8) 4 4 = resize (create_icon 8) 4 4 ∧
    generate_all_sizes (fun _ => false) ⟨create_icon 8, FS.mk [] []⟩ "AppIcons"
      = generate_all_sizes (fun _ => false) ⟨create_icon 8, FS.mk [] []⟩ "AppIcons" :=
  generator_deterministic 8 4 (fun _ => false) (FS.mk [] []) "AppIcons" _ _ rfl rfl

/-- Modelled from the spec words of C2 for comparison: the linear blend of
start channel a toward end channel b at row y of height h, rounded to the
nearest integer — floor of the exact rational plus one half. -/
def roundBlend (a b y h : Nat) : Nat := (2 * (a * (h - y) + b * y) + h) / (2 * h)

set_option maxRecDepth 100000 in
/-- C2 as stated is false: the program converts with Python `int()`, which
truncates the computed float; in the height-8 gradient (whose floats are
all exact) row 3 is drawn as (187, 87, 48), e.g. blue = int(48.75) = 48,
while rounding the blend to the nearest integer gives (188, 88, 49). -/
theorem gradient_fp_not_rounded :
    (create_gradient_background_fp 8 8).pix 0 3 = (187, 87, 48) ∧
    roundBlend 0 130 3 8 = 49 ∧
    (create_gradient_background_fp 8 8).pix 0 3
      ≠ (roundBlend 255 75 3 8, roundBlend 140 0 3 8, roundBlend 0 130 3 8) := by
  have hpix : (create_gradient_background_fp 8 8).pix 0 ((3 : Nat) : Int)
      = (gradR_fp 3 8, gradG_fp 3 8, gradB_fp 3 8) :=
    gradient_pix_fp 8 8 0 3 (by decide) (by decide) (by decide)
  simp only [Nat.cast_ofNat] at hpix
  have hvals : (gradR_fp 3 8, gradG_fp 3 8, gradB_fp 3 8) = ((187 : Nat), (87 : Nat), (48 : Nat)) := by
    decide
  refine ⟨by rw [hpix, hvals], by decide, by rw [hpix, hvals]; decide⟩

/-- C2 (amended): for every row y of a gradient bitmap of height h the
generator computes the interpolation ratio y/h as an IEEE double and sets
each channel of the full-width row to the double-precision evaluation of
the linear blend of (255,140,0) toward (75,0,130), truncated to integer
(Python `int()`, the floor of the computed nonnegative float) — not rounded
to nearest, and at heights with inexact float arithmetic one below the
exact blend's floor at some rows. -/
theorem gradient_fp_row_blend (w h : Nat) (X : Int) (y : Nat) (hy : y < h)
    (hX0 : 0 ≤ X) (hXw : X ≤ (w : Int)) :
    (create_gradient_background_fp w h).pix X (y : Int)
      = (gradR_fp y h, gradG_fp y h, gradB_fp y h) :=
  gradient_pix_fp w h X y hy hX0 hXw

/-- Witness for C2 (amended) at h = 8, row 3, column 2. -/
theorem gradient_fp_row_blend_witness :
    (create_gradient_background_fp 8 8).pix 2 ((3 : Nat) : Int)
      = (gradR_fp 3 8, gradG_fp 3 8, gradB_fp 3 8) :=
  gradient_fp_row_blend 8 8 2 3 (by decide) (by decide) (by decide)

set_option maxRecDepth 100000 in
/-- C3 as stated is false for small heights: in the height-2 gradient
(whose floats are exact) the last row, row 1, is drawn as (165, 70, 65);
its red channel is 90 away from the end color's 75, far outside off-by-one
rounding tolerance. -/
theorem gradient_fp_tolerance_cex :
    (create_gradient_background_fp 2 2).pix 0 1 = (165, 70, 65) ∧ 75 + 1 < 165 := by
  have hpix : (create_gradient_background_fp 2 2).pix 0 ((1 : Nat) : Int)
      = (gradR_fp 1 2, gradG_fp 1 2, gradB_fp 1 2) :=
    gradient_pix_fp 2 2 0 1 (by decide) (by decide) (by decide)
  simp only [Nat.cast_one] at hpix
  exact ⟨by rw [hpix]; decide, by decide⟩

/-- C3 (amended to the generated size 1024, the one master height the
script rasterizes; for that height every intermediate double is exact, see
`grad_fp_1024_eq`): row 0 is exactly the start color (255,140,0); row 1023
has each channel within one of the end color (75,0,130); and down the rows
red and green are monotonically non-increasing while blue is
non-decreasing. -/
theorem gradient_fp_endpoints_monotone (y1 y2 : Nat) (hy : y1 ≤ y2) (hy2 : y2 < 1024) :
    (create_gradient_background_fp 1024 1024).pix 0 ((0 : Nat) : Int) = (255, 140, 0) ∧
    (75 ≤ gradR_fp 1023 1024 ∧ gradR_fp 1023 1024 ≤ 76 ∧ gradG_fp 1023 1024 ≤ 1 ∧
      129 ≤ gradB_fp 1023 1024 ∧ gradB_fp 1023 1024 ≤ 130) ∧
    (create_gradient_background_fp 1024 1024).pix 0 ((1023 : Nat) : Int)
      = (gradR_fp 1023 1024, gradG_fp 1023 1024, gradB_fp 1023 1024) ∧
    gradR_fp y2 1024 ≤ gradR_fp y1 1024 ∧ gradG_fp y2 1024 ≤ gradG_fp y1 1024 ∧
    gradB_fp y1 1024 ≤ gradB_fp y2 1024 := by
  have h0 := grad_fp_1024_eq 0 (by norm_num)
  have hlast := grad_fp_1024_eq 1023 (by norm_num)
  have h1 := grad_fp_1024_eq y1 (by omega)
  have h2 := grad_fp_1024_eq y2 hy2
  refine ⟨?_, ?_,
    gradient_pix_fp 1024 1024 0 1023 (by norm_num) (le_refl 0) (by norm_num),
    ?_, ?_, ?_⟩
  · rw [gradient_pix_fp 1024 1024 0 0 (by norm_num) (le_refl 0) (by norm_num),
      h0.1, h0.2.1, h0.2.2]
    decide
  · rw [hlast.1, hlast.2.1, hlast.2.2]
    refine ⟨by decide, by decide, by decide, by decide, by decide⟩
  · rw [h1.1, h2.1]
    exact Nat.div_le_div_right (by omega)
  · rw [h1.2.1, h2.2.1]
    exact Nat.div_le_div_right (by omega)
  · rw [h1.2.2, h2.2.2]
    exact Nat.div_le_div_right (by omega)

/-- Witness for C3 (amended) with rows 200 ≤ 600 of the 1024 gradient. -/
theorem gradient_fp_endpoints_monotone_witness :
    (create_gradient_background_fp 1024 1024).pix 0 ((0 : Nat) : Int) = (255, 140, 0) ∧
    (75 ≤ gradR_fp 1023 1024 ∧ gradR_fp 1023 1024 ≤ 76 ∧ gradG_fp 1023 1024 ≤ 1 ∧
      129 ≤ gradB_fp 1023 1024 ∧ gradB_fp 1023 1024 ≤ 130) ∧
    (create_gradient_background_fp 1024 1024).pix 0 ((1023 : Nat) : Int)
      = (gradR_fp 1023 1024, gradG_fp 1023 1024, gradB_fp 1023 1024) ∧
    gradR_fp 600 1024 ≤ gradR_fp 200 1024 ∧ gradG_fp 600 1024 ≤ gradG_fp 200 1024 ∧
    gradB_fp 200 1024 ≤ gradB_fp 600 1024 :=
  gradient_fp_endpoints_monotone 200 600 (by decide) (by decide)


/-- C9: for positive dimensions the gradient generator is total: the row
ratio y/h is well defined (h > 0), every in-range pixel gets a well-defined
color with each channel in 0..255, and the pixel differs from the untouched
base bitmap — the computation reaches no error branch. -/
theorem gradient_total (w h : Nat) (X : Int) (y : Nat) (hh : 0 < h) (hy : y < h)
    (hX0 : 0 ≤ X) (hXw : X ≤ (w : Int)) :
    (create_gradient_background w h).pix X (y : Int) = gradColor y h ∧
    75 ≤ gradR y h ∧ gradR y h ≤ 255 ∧ gradG y h ≤ 140 ∧ gradB y h ≤ 129 ∧
    (create_gradient_background w h).pix X (y : Int) ≠ (blank w h).pix X (y : Int) := by
  have h75 : 75 ≤ gradR y h := by
    have hnum : 75 * h ≤ 255 * (h - y) + 75 * y := by omega
    have := Nat.div_le_div_right (c := h) hnum
    rwa [Nat.mul_div_cancel _ hh] at this
  have h255 : gradR y h ≤ 255 := by
    have hnum : 255 * (h - y) + 75 * y ≤ 255 * h := by omega
    have := Nat.div_le_div_right (c := h) hnum
    rwa [Nat.mul_div_cancel _ hh] at this
  have h140 : gradG y h ≤ 140 := by
    have hnum : 140 * (h - y) + 0 * y ≤ 140 * h := by omega
    have := Nat.div_le_div_right (c := h) hnum
    rwa [Nat.mul_div_cancel _ hh] at this
  have h129 : gradB y h ≤ 129 := by
    have : gradB y h < 130 := (Nat.div_lt_iff_lt_mul hh).mpr (by omega)
    omega
  have hpix := gradient_pix w h X y hy hX0 hXw
  refine ⟨hpix, h75, h255, h140, h129, ?_⟩
  rw [hpix, show (blank w h).pix X (y : Int) = (0, 0, 0) from rfl]
  intro hEq
  have : gradR y h = 0 := congrArg Prod.fst hEq
  omega

/-- Witness for C9 at w = h = 3, pixel (1, 1). -/
theorem gradient_total_witness :
    (create_gradient_background 3 3).pix 1 ((1 : Nat) : Int) = gradColor 1 3 ∧
    75 ≤ gradR 1 3 ∧ gradR 1 3 ≤ 255 ∧ gradG 1 3 ≤ 140 ∧ gradB 1 3 ≤ 129 ∧
    (create_gradient_background 3 3).pix 1 ((1 : Nat) : Int) ≠ (blank 3 3).pix 1 ((1 : Nat) : Int) :=
  gradient_total 3 3 1 1 (by decide) (by decide) (by decide) (by decide)

/-- Alpha compositing as the claim (and the code's own comment "slightly
transparent white") expects for the second note: source-over of the 4-tuple
fill onto the destination pixel at alpha a. -/
def blendOver (src : Color) (a : Nat) (dst : Color) : Color :=
  ((src.1 * a + dst.1 * (255 - a)) / 255,
   (src.2.1 * a + dst.2.1 * (255 - a)) / 255,
   (src.2.2 * a + dst.2.2 * (255 - a)) / 255)

/-- C6: the second note is drawn at scale 3/4 of the canvas, offset from
center, with fill (255,255,255,200) — but the canvas is an `'RGB'` image
whose default drawing context ignores the alpha component, so at the center
of the second note's head (pixel (308, 838) of the 1024 run, covered by no
other shape) the result is fully opaque white, not the alpha-200 blend over
the gradient that the claim describes. -/
theorem second_note_alpha_ignored :
    (create_icon 1024).pix 308 838 = (255, 255, 255) ∧
    gradColor 838 1024 = (107, 25, 106) ∧
    blendOver (255, 255, 255) 200 (gradColor 838 1024) = (223, 205, 222) ∧
    blendOver (255, 255, 255) 200 (gradColor 838 1024) ≠ (255, 255, 255) := by
  refine ⟨?_, by decide, by decide, by decide⟩
  have hgrad : (create_gradient_background 1024 1024).pix 308 ((838 : Nat) : Int)
      = gradColor 838 1024 :=
    gradient_pix 1024 1024 308 838 (by decide) (by decide) (by decide)
  simp only [Nat.cast_ofNat] at hgrad
  simp only [create_icon, draw_music_note, applyCmd_pix, applyCmds_pix, hgrad]
  decide

/-- C7: for every anchor and scale, `draw_music_note` issues exactly three
filled primitives with geometry fixed proportionally to size — an ellipse
head of radius size/8 whose box starts size/6 below the anchor, a stem
rectangle of width size/25 reaching from size/3 above the anchor down to the
head's top, and a flag triangle whose first vertex coincides with the stem's
top-right corner — and its whole effect is the in-place application of those
three commands to the canvas (nothing is returned beyond the mutated
canvas, modelled by state passing). -/
theorem draw_music_note_primitives (c : Canvas) (cx cy : Int) (size : Nat) (color : Fill) :
    draw_music_note c cx cy size color = applyCmds c (note_cmds cx cy size color) ∧
    (note_cmds cx cy size color).length = 3 ∧
    ∃ hd st fl : Shape × Fill,
      note_cmds cx cy size color = [hd, st, fl] ∧
      hd.2 = color ∧ st.2 = color ∧ fl.2 = color ∧
      hd.1 = Shape.ellipse (cx - ((size / 8 : Nat) : Int)) (cy + ((size / 6 : Nat) : Int))
               (cx + ((size / 8 : Nat) : Int))
               (cy + ((size / 6 : Nat) : Int) + ((size / 8 : Nat) : Int) * 2) ∧
      cy ≤ cy + ((size / 6 : Nat) : Int) ∧
      st.1 = Shape.rect (cx + ((size / 8 : Nat) : Int) - ((size / 25 : Nat) : Int))
               (cy - ((size / 3 : Nat) : Int)) (cx + ((size / 8 : Nat) : Int))
               (cy + ((size / 6 : Nat) : Int)) ∧
      (cx + ((size / 8 : Nat) : Int)) -
          (cx + ((size / 8 : Nat) : Int) - ((size / 25 : Nat) : Int))
        = ((size / 25 : Nat) : Int) ∧
      fl.1 = Shape.tri (cx + ((size / 8 : Nat) : Int), cy - ((size / 3 : Nat) : Int))
               (cx + ((size / 8 : Nat) : Int) + ((size / 6 : Nat) : Int),
                cy - ((size / 5 : Nat) : Int))
               (cx + ((size / 8 : Nat) : Int), cy - ((size / 8 : Nat) : Int)) := by
  refine ⟨rfl, rfl, _, _, _, rfl, rfl, rfl, rfl, rfl, ?_, rfl, by ring, rfl⟩
  omega
